import Mathlib

/-!
Verification of the exception-frame decoding core declared in
src/ExceptionDecoder.h.  The header only declares the interface
(ExceptionDecoder with member ehParser, the four tuple projections
getCIEEntry / getCIEEncoding / getCIEPersonality / getFDEPointerLocations,
and addExceptionInformation); the parsing, resolving and projection
behaviour is modelled from the specification (spec.md sections 3, 4 and 7).
-/

namespace EhFrame

/-! ## Byte-level primitives -/

/-- Little-endian value of a byte list (least significant byte first). -/
def leValue (bs : List Nat) : Nat :=
  bs.foldr (fun b acc => b + 256 * acc) 0

/-- Little-endian encoding of a natural number into exactly w bytes. -/
def leBytes : Nat → Nat → List Nat
  | 0, _ => []
  | w + 1, n => n % 256 :: leBytes w (n / 256)

/-- Read n bytes starting at pos, failing when the buffer is too short. -/
def readBytes? (bytes : List Nat) (pos n : Nat) : Option (List Nat) :=
  if pos + n ≤ bytes.length then some ((bytes.drop pos).take n) else none

/-- Read a 4-byte little-endian unsigned value. -/
def readU32? (bytes : List Nat) (pos : Nat) : Option Nat :=
  (readBytes? bytes pos 4).map leValue

/-- Read an 8-byte little-endian unsigned value. -/
def readU64? (bytes : List Nat) (pos : Nat) : Option Nat :=
  (readBytes? bytes pos 8).map leValue

/-- Decode an unsigned LEB128 value from the front of a byte list,
returning the value and the number of bytes consumed. -/
def ulebDecode : List Nat → Option (Nat × Nat)
  | [] => none
  | b :: rest =>
    if b < 128 then some (b, 1)
    else
      match ulebDecode rest with
      | some (v, k) => some (b % 128 + 128 * v, k + 1)
      | none => none

/-- Fuel-driven worker for unsigned LEB128 encoding. -/
def ulebEncodeAux : Nat → Nat → List Nat
  | 0, n => [n % 128]
  | f + 1, n => if n < 128 then [n] else (n % 128 + 128) :: ulebEncodeAux f (n / 128)

/-- Unsigned LEB128 encoding of a natural number. -/
def ulebEncode (n : Nat) : List Nat :=
  ulebEncodeAux n n

/-- Decode a signed LEB128 value from the front of a byte list,
returning the value and the number of bytes consumed. -/
def slebDecode : List Nat → Option (Int × Nat)
  | [] => none
  | b :: rest =>
    if b < 128 then
      some (if b < 64 then (b : Int) else (b : Int) - 128, 1)
    else
      match slebDecode rest with
      | some (v, k) => some ((b % 128 : Nat) + 128 * v, k + 1)
      | none => none

/-- Fuel-driven worker for signed LEB128 encoding. -/
def slebEncodeAux : Nat → Int → List Nat
  | 0, n => [(n % 128).toNat]
  | f + 1, n =>
    if -64 ≤ n ∧ n < 64 then [(n % 128).toNat]
    else ((n % 128).toNat + 128) :: slebEncodeAux f (n / 128)

/-- Signed LEB128 encoding of an integer. -/
def slebEncode (n : Int) : List Nat :=
  slebEncodeAux n.natAbs n

/-- Interpret an unsigned w-byte value as a two's-complement integer. -/
def fromTwos (w : Nat) (u : Nat) : Int :=
  if 2 * u < 256 ^ w then (u : Int) else (u : Int) - 256 ^ w

/-! ## Errors and diagnostics (spec.md section 7) -/

/-- Modelled from the spec: the fatal error kinds of the decode.
MalformedFrameSection covers length or offset fields pointing outside
section bounds and byte streams ending mid-record; UnsupportedEncoding
covers unrecognized pointer-encoding format nibbles.  The fuelExhausted
constructor is an artifact of the fuel-driven embedding of the cursor
loop; the termination theorem shows it is never produced when the fuel
is the section length plus one. -/
inductive DecodeError where
  | MalformedFrameSection
  | UnsupportedEncoding
  | fuelExhausted
deriving DecidableEq, Repr

/-- Modelled from the spec: the locally recovered diagnostic kinds.
DanglingFDEReference records an FDE whose computed CIE offset matches
no parsed CIE; the FDE is skipped and parsing continues. -/
inductive Diagnostic where
  | danglingFDEReference (fdeOffset : Nat)
deriving DecidableEq, Repr

/-! ## Encoding Resolver (spec.md section 4.2) -/

/-- Modelled from the spec: decode a format nibble against the front of
a byte stream, returning the raw (pre-modifier) value and the number of
bytes consumed.  Formats: 0x0 absolute pointer (8 bytes), 0x1 unsigned
LEB128, 0x2/0x3/0x4 unsigned 2/4/8-byte, 0x9 signed LEB128,
0xA/0xB/0xC signed 2/4/8-byte.  Any other format nibble fails with
UnsupportedEncoding; a fixed-width field extending past the end of the
stream fails with MalformedFrameSection. -/
def rawFieldDecode (fmt : Nat) (bs : List Nat) : Except DecodeError (Int × Nat) :=
  match fmt with
  | 0x0 => if 8 ≤ bs.length then .ok ((leValue (bs.take 8) : Int), 8)
           else .error .MalformedFrameSection
  | 0x1 =>
    match ulebDecode bs with
    | some (v, k) => .ok ((v : Int), k)
    | none => .error .MalformedFrameSection
  | 0x2 => if 2 ≤ bs.length then .ok ((leValue (bs.take 2) : Int), 2)
           else .error .MalformedFrameSection
  | 0x3 => if 4 ≤ bs.length then .ok ((leValue (bs.take 4) : Int), 4)
           else .error .MalformedFrameSection
  | 0x4 => if 8 ≤ bs.length then .ok ((leValue (bs.take 8) : Int), 8)
           else .error .MalformedFrameSection
  | 0x9 =>
    match slebDecode bs with
    | some (v, k) => .ok (v, k)
    | none => .error .MalformedFrameSection
  | 0xA => if 2 ≤ bs.length then .ok (fromTwos 2 (leValue (bs.take 2)), 2)
           else .error .MalformedFrameSection
  | 0xB => if 4 ≤ bs.length then .ok (fromTwos 4 (leValue (bs.take 4)), 4)
           else .error .MalformedFrameSection
  | 0xC => if 8 ≤ bs.length then .ok (fromTwos 8 (leValue (bs.take 8)), 8)
           else .error .MalformedFrameSection
  | _ => .error .UnsupportedEncoding

/-- Modelled from the spec: decode the format nibble of a pointer-encoding
byte against the front of a byte stream. -/
def readEncodedRaw (enc : Nat) (bs : List Nat) : Except DecodeError (Int × Nat) :=
  rawFieldDecode (enc % 16) bs

/-- Modelled from the spec: apply the encoding byte's modifier nibble to
the raw decoded value.  Modifier 0 is absolute; any relative modifier
(PC-relative, text-relative, data-relative) adds the base address
appropriate to that modifier, which the caller supplies. -/
def applyModifier (enc : Nat) (base : Int) (raw : Int) : Int :=
  if enc / 16 % 16 = 0 then raw else base + raw

/-- Modelled from the spec: choose the base address appropriate to the
modifier.  PC-relative (modifier nibble 1) uses the encoded field's own
address (load base plus the field's section offset); the other relative
modifiers use the section load base, the only base metadata the ELF
Reader interface provides. -/
def baseFor (loadBase : Int) (fieldPos : Nat) (enc : Nat) : Int :=
  if enc / 16 % 16 = 1 then loadBase + fieldPos else loadBase

/-- Modelled from the spec: the Encoding Resolver.  Given an encoding
byte, the base address appropriate to the modifier and the raw encoded
bytes, return the resolved absolute pointer, or fail with
UnsupportedEncoding on an unrecognized format nibble. -/
def resolveEncoded (enc : Nat) (base : Int) (bs : List Nat) : Except DecodeError Int :=
  match readEncodedRaw enc bs with
  | .ok (raw, _) => .ok (applyModifier enc base raw)
  | .error e => .error e

/-- Encode a raw (pre-modifier) value into the byte form of a format
nibble: the inverse of rawFieldDecode on representable values. -/
def encodeByFormat (fmt : Nat) (raw : Int) : List Nat :=
  match fmt with
  | 0x0 => leBytes 8 raw.toNat
  | 0x1 => ulebEncode raw.toNat
  | 0x2 => leBytes 2 raw.toNat
  | 0x3 => leBytes 4 raw.toNat
  | 0x4 => leBytes 8 raw.toNat
  | 0x9 => slebEncode raw
  | 0xA => leBytes 2 (raw % (256 ^ 2 : Int)).toNat
  | 0xB => leBytes 4 (raw % (256 ^ 4 : Int)).toNat
  | 0xC => leBytes 8 (raw % (256 ^ 8 : Int)).toNat
  | _ => []

/-- Modelled from the spec: the round-trip inverse of the Encoding
Resolver — encode a pointer value under a given encoding byte and base
address into raw bytes.  The raw value stored is the pointer itself for
modifier 0 and pointer minus base for the relative modifiers. -/
def encodePointer (enc : Nat) (base : Int) (v : Int) : List Nat :=
  encodeByFormat (enc % 16) (if enc / 16 % 16 = 0 then v else v - base)

/-- Representability of a raw (pre-modifier) value in a given format
nibble: unsigned forms need a nonnegative value below the width bound,
signed fixed forms need a value in the two's-complement range, signed
LEB128 represents every integer, and unrecognized nibbles represent
nothing. -/
def rawRepresentable (fmt : Nat) (raw : Int) : Prop :=
  match fmt with
  | 0x0 => 0 ≤ raw ∧ raw < 256 ^ 8
  | 0x1 => 0 ≤ raw
  | 0x2 => 0 ≤ raw ∧ raw < 256 ^ 2
  | 0x3 => 0 ≤ raw ∧ raw < 256 ^ 4
  | 0x4 => 0 ≤ raw ∧ raw < 256 ^ 8
  | 0x9 => True
  | 0xA => -(256 ^ 2 / 2) ≤ raw ∧ raw < 256 ^ 2 / 2
  | 0xB => -(256 ^ 4 / 2) ≤ raw ∧ raw < 256 ^ 4 / 2
  | 0xC => -(256 ^ 8 / 2) ≤ raw ∧ raw < 256 ^ 8 / 2
  | _ => False

instance (fmt : Nat) (raw : Int) : Decidable (rawRepresentable fmt raw) := by
  unfold rawRepresentable
  split <;> infer_instance

/-! ## Frame table data model (spec.md section 3) -/

/-- Modelled from the spec: a Common Information Entry.  Keyed by the
byte offset at which it begins; the optional fields come from the
augmentation string ('R' gives the FDE pointer encoding, 'P' gives the
personality encoding byte and resolved personality pointer, 'L' gives
the LSDA pointer encoding). -/
structure CIE where
  offset : Nat
  version : Nat
  augmentation : List Nat
  codeAlign : Nat
  dataAlign : Int
  retAddrReg : Nat
  fdeEncoding : Option Nat
  personality : Option (Nat × Int)
  lsdaEncoding : Option Nat
deriving DecidableEq, Repr

/-- Modelled from the spec: a Frame Description Entry.  Keyed by its own
byte offset; carries the owning CIE's offset as a plain back-reference,
the resolved start address and range, and the optional resolved LSDA
pointer from its augmentation data. -/
structure FDE where
  offset : Nat
  cieOffset : Nat
  startAddr : Int
  addrRange : Int
  lsdaPointer : Option Int
deriving DecidableEq, Repr

/-- The parser's accumulated result: the CIE and FDE collections built
during the single forward pass, plus the surfaced diagnostics. -/
structure ParseState where
  cies : List CIE
  fdes : List FDE
  diags : List Diagnostic
deriving DecidableEq, Repr

/-- The optional CIE fields accumulated by the augmentation-string
walker. -/
structure AugFields where
  fdeEncoding : Option Nat
  personality : Option (Nat × Int)
  lsdaEncoding : Option Nat
deriving DecidableEq, Repr

/-! ## Frame Table Parser (spec.md section 4.1) -/

/-- Modelled from the spec: the augmentation-string-driven field walker.
Walks the augmentation string character by character over the
augmentation-data block: 'z' (122) only introduces the length prefix
already consumed by the caller, 'R' (82) reads the FDE-pointer encoding
byte, 'L' (76) reads the LSDA encoding byte, 'P' (80) reads the
personality encoding byte followed by the encoded personality pointer,
resolved against the load base.  Any other character makes the remainder
of the augmentation data opaque: the walk stops with the fields gathered
so far, as does a personality pointer with an unsupported encoding.
Running out of augmentation data mid-field is a malformed section. -/
def parseAugChars (loadBase : Int) (dataPos : Nat) :
    List Nat → List Nat → Nat → AugFields → Except DecodeError AugFields
  | [], _, _, acc => .ok acc
  | c :: cs, data, i, acc =>
    if c = 122 then parseAugChars loadBase dataPos cs data i acc
    else if c = 82 then
      match data[i]? with
      | some e => parseAugChars loadBase dataPos cs data (i + 1)
          { acc with fdeEncoding := some e }
      | none => .error .MalformedFrameSection
    else if c = 76 then
      match data[i]? with
      | some e => parseAugChars loadBase dataPos cs data (i + 1)
          { acc with lsdaEncoding := some e }
      | none => .error .MalformedFrameSection
    else if c = 80 then
      match data[i]? with
      | none => .error .MalformedFrameSection
      | some e =>
        match readEncodedRaw e (data.drop (i + 1)) with
        | .ok (raw, k) =>
          let addr := applyModifier e (baseFor loadBase (dataPos + i + 1) e) raw
          parseAugChars loadBase dataPos cs data (i + 1 + k)
            { acc with personality := some (e, addr) }
        | .error .UnsupportedEncoding => .ok acc
        | .error e2 => .error e2
    else .ok acc

/-- Modelled from the spec: parse a CIE body (the record content after
the length and CIE-pointer fields) in fixed order: version byte,
null-terminated augmentation string, code alignment (unsigned LEB128),
data alignment (signed LEB128), return-address register (unsigned
LEB128), then — when the augmentation string contains 'z' — the
augmentation-data length prefix and the string-driven optional fields.
contentPos is the absolute section offset of the content, used for
PC-relative bases. -/
def parseCIEContent (loadBase : Int) (pos contentPos : Nat) (content : List Nat) :
    Except DecodeError CIE :=
  match content with
  | [] => .error .MalformedFrameSection
  | ver :: rest =>
    match rest.findIdx? (fun b => b = 0) with
    | none => .error .MalformedFrameSection
    | some zi =>
      let aug := rest.take zi
      let after := rest.drop (zi + 1)
      match ulebDecode after with
      | none => .error .MalformedFrameSection
      | some (codeAl, k1) =>
        match slebDecode (after.drop k1) with
        | none => .error .MalformedFrameSection
        | some (dataAl, k2) =>
          match ulebDecode (after.drop (k1 + k2)) with
          | none => .error .MalformedFrameSection
          | some (raReg, k3) =>
            if 122 ∈ aug then
              let rest2 := after.drop (k1 + k2 + k3)
              match ulebDecode rest2 with
              | none => .error .MalformedFrameSection
              | some (augLen, k4) =>
                if k4 + augLen ≤ rest2.length then
                  let dataPos := contentPos + 1 + zi + 1 + k1 + k2 + k3 + k4
                  match parseAugChars loadBase dataPos aug
                      ((rest2.drop k4).take augLen) 0 ⟨none, none, none⟩ with
                  | .ok flds =>
                    .ok ⟨pos, ver, aug, codeAl, dataAl, raReg,
                         flds.fdeEncoding, flds.personality, flds.lsdaEncoding⟩
                  | .error e => .error e
                else .error .MalformedFrameSection
            else .ok ⟨pos, ver, aug, codeAl, dataAl, raReg, none, none, none⟩

/-- Modelled from the spec: parse an FDE body (the record content after
the length and CIE-pointer fields) against its owning CIE: the encoded
start address and range length use the CIE's FDE-pointer encoding
(absolute pointer when the CIE declared none); when the CIE has a 'z'
augmentation, an augmentation-data block follows whose LSDA pointer — if
the CIE declared an 'L' field — is decoded with the CIE's LSDA encoding.
Returns none (the FDE is skipped, not fabricated) when an essential
field has an unsupported encoding. -/
def parseFDEContent (loadBase : Int) (pos contentPos : Nat) (content : List Nat)
    (cie : CIE) : Except DecodeError (Option FDE) :=
  let enc := cie.fdeEncoding.getD 0
  match readEncodedRaw enc content with
  | .error .UnsupportedEncoding => .ok none
  | .error e => .error e
  | .ok (rawStart, k1) =>
    match readEncodedRaw enc (content.drop k1) with
    | .error .UnsupportedEncoding => .ok none
    | .error e => .error e
    | .ok (rawRange, k2) =>
      let startAddr := applyModifier enc (baseFor loadBase contentPos enc) rawStart
      if 122 ∈ cie.augmentation then
        match ulebDecode (content.drop (k1 + k2)) with
        | none => .error .MalformedFrameSection
        | some (augLen, k3) =>
          if k1 + k2 + k3 + augLen ≤ content.length then
            let augData := (content.drop (k1 + k2 + k3)).take augLen
            match cie.lsdaEncoding with
            | none => .ok (some ⟨pos, cie.offset, startAddr, rawRange, none⟩)
            | some le =>
              match readEncodedRaw le augData with
              | .ok (rawL, _) =>
                .ok (some ⟨pos, cie.offset, startAddr, rawRange,
                     some (applyModifier le
                       (baseFor loadBase (contentPos + k1 + k2 + k3) le) rawL)⟩)
              | .error .UnsupportedEncoding =>
                .ok (some ⟨pos, cie.offset, startAddr, rawRange, none⟩)
              | .error e => .error e
          else .error .MalformedFrameSection
      else .ok (some ⟨pos, cie.offset, startAddr, rawRange, none⟩)

/-- Modelled from the spec: read the header of the record starting at
pos: the 4-byte length field with the 0xffffffff-prefixed escape
introducing an 8-byte extended length.  Returns (extended?, length,
record end offset) when the record is neither the zero-length terminator
nor malformed: the declared extent must lie within the section and the
body must be large enough to hold the CIE-pointer field (4 bytes, 8 when
extended). -/
def recordHeader? (bytes : List Nat) (pos : Nat) : Option (Bool × Nat × Nat) :=
  match readU32? bytes pos with
  | none => none
  | some len0 =>
    if len0 = 0 then none
    else if len0 = 0xffffffff then
      match readU64? bytes (pos + 4) with
      | none => none
      | some len =>
        if pos + 12 + len ≤ bytes.length ∧ 8 ≤ len then some (true, len, pos + 12 + len)
        else none
    else
      if pos + 4 + len0 ≤ bytes.length ∧ 4 ≤ len0 then some (false, len0, pos + 4 + len0)
      else none

/-- The stored value of the record's CIE-pointer field (zero marks a
CIE; anything else is an FDE back-reference), readable whenever the
header is. -/
def recordId? (bytes : List Nat) (pos : Nat) : Option Nat :=
  match recordHeader? bytes pos with
  | none => none
  | some (ext, len, _) =>
    let hdr := if ext then 12 else 4
    let idLen := if ext then 8 else 4
    some (leValue (((bytes.drop (pos + hdr)).take len).take idLen))

/-- Outcome of processing one record: the terminator was reached, the
cursor advances to the next record with an updated state, or the whole
parse fails. -/
inductive StepRes where
  | done (st : ParseState)
  | next (st : ParseState) (pos : Nat)
  | fail (e : DecodeError)
deriving DecidableEq, Repr

/-- Modelled from the spec: process the body of a non-terminator record
whose header has been read.  A zero CIE-pointer value makes the record a
CIE, parsed and appended to the collection; any other value is an FDE
back-reference computed as current-record-offset minus the stored value,
looked up among the parsed CIEs: a failed lookup skips the FDE and
surfaces a DanglingFDEReference diagnostic, a successful one parses the
FDE body against the owning CIE.  The cursor always advances past the
record to recEnd, the end given by its declared length. -/
def stepBody (bytes : List Nat) (loadBase : Int) (pos : Nat) (st : ParseState)
    (ext : Bool) (len recEnd : Nat) : StepRes :=
  let hdr := if ext then 12 else 4
  let idLen := if ext then 8 else 4
  let body := (bytes.drop (pos + hdr)).take len
  let idv := leValue (body.take idLen)
  let content := body.drop idLen
  let contentPos := pos + hdr + idLen
  if idv = 0 then
    match parseCIEContent loadBase pos contentPos content with
    | .ok cie => .next { st with cies := st.cies ++ [cie] } recEnd
    | .error e => .fail e
  else
    match st.cies.find? (fun c => (c.offset : Int) = (pos : Int) - (idv : Int)) with
    | none =>
      .next { st with diags := st.diags ++ [.danglingFDEReference pos] } recEnd
    | some cie =>
      match parseFDEContent loadBase pos contentPos content cie with
      | .ok none => .next st recEnd
      | .ok (some fde) => .next { st with fdes := st.fdes ++ [fde] } recEnd
      | .error e => .fail e

/-- Modelled from the spec: process the record at pos.  A zero length
field is the terminator; a header that cannot be read or whose declared
extent overruns the section fails the parse with
MalformedFrameSection; otherwise the record body is processed and the
cursor advances. -/
def stepAt (bytes : List Nat) (loadBase : Int) (pos : Nat) (st : ParseState) : StepRes :=
  if readU32? bytes pos = some 0 then .done st
  else
    match recordHeader? bytes pos with
    | none => .fail .MalformedFrameSection
    | some (ext, len, recEnd) => stepBody bytes loadBase pos st ext len recEnd

/-- Modelled from the spec: the cursor loop.  Starting at offset 0,
process the record at the cursor and advance past it by its declared
length until the terminator record, the end of the section, or a fatal
error.  The loop is driven by a fuel parameter; the termination theorem
shows that fuel equal to the section length plus one is always enough. -/
def parseFrom (bytes : List Nat) (loadBase : Int) :
    Nat → Nat → ParseState → Except DecodeError ParseState
  | fuel, pos, st =>
    if bytes.length ≤ pos then .ok st
    else
      match fuel with
      | 0 => .error .fuelExhausted
      | f + 1 =>
        match stepAt bytes loadBase pos st with
        | .done st2 => .ok st2
        | .fail e => .error e
        | .next st2 nxt => parseFrom bytes loadBase f nxt st2

/-- Modelled from the spec: the Frame Table Parser.  Parse the whole
exception-frame section from offset 0 with empty collections. -/
def parseSection (bytes : List Nat) (loadBase : Int) : Except DecodeError ParseState :=
  parseFrom bytes loadBase (bytes.length + 1) 0 ⟨[], [], []⟩

/-- The cursor positions the record walk can reach: offset 0, and past
any record whose header parses. -/
inductive Reaches (bytes : List Nat) : Nat → Prop where
  | refl : Reaches bytes 0
  | step {pos : Nat} {ext : Bool} {len nxt : Nat} :
      Reaches bytes pos → recordHeader? bytes pos = some (ext, len, nxt) →
      Reaches bytes nxt

/-- The record at pos is truncated at the section level: the section
ends inside the length field, inside the extended length field, or the
declared length makes the record extend past the section boundary. -/
def headerTruncated (bytes : List Nat) (pos : Nat) : Prop :=
  pos < bytes.length ∧
  (bytes.length < pos + 4 ∨
   (readU32? bytes pos = some 0xffffffff ∧ bytes.length < pos + 12) ∨
   (∃ len0, readU32? bytes pos = some len0 ∧ len0 ≠ 0 ∧ len0 ≠ 0xffffffff ∧
     bytes.length < pos + 4 + len0) ∨
   (∃ len, readU32? bytes pos = some 0xffffffff ∧ readU64? bytes (pos + 4) = some len ∧
     bytes.length < pos + 12 + len))

/-! ## Fact Projector (spec.md section 4.3) -/

/-- The pointer-kind tag of an FDE pointer-location fact. -/
inductive PtrKind where
  | lsda
deriving DecidableEq, Repr

/-- Modelled from the spec: the four relational tuple schemas produced
by the Fact Projector. -/
inductive FactTuple where
  | cieEntry (offset version codeAlign : Nat) (dataAlign : Int) (retAddrReg : Nat)
  | cieEncoding (offset fmt modifier : Nat)
  | ciePersonality (offset : Nat) (addr : Int)
  | fdePointerLocations (fdeOffset cieOffset : Nat) (kind : PtrKind) (addr : Int)
deriving DecidableEq, Repr

/-- Modelled from the spec: one "CIE record" tuple per CIE. -/
def cieEntryTuples (st : ParseState) : List FactTuple :=
  st.cies.map fun c => .cieEntry c.offset c.version c.codeAlign c.dataAlign c.retAddrReg

/-- Modelled from the spec: one "CIE encoding" tuple per CIE that
declares an FDE-pointer encoding, splitting the encoding byte into its
format and modifier nibbles. -/
def cieEncodingTuples (st : ParseState) : List FactTuple :=
  st.cies.filterMap fun c =>
    c.fdeEncoding.map fun e => .cieEncoding c.offset (e % 16) (e / 16 % 16)

/-- Modelled from the spec: one "CIE personality" tuple per CIE that
declares a personality routine. -/
def ciePersonalityTuples (st : ParseState) : List FactTuple :=
  st.cies.filterMap fun c =>
    c.personality.map fun p => .ciePersonality c.offset p.2

/-- Modelled from the spec: one "FDE pointer locations" tuple per FDE
that has a resolved LSDA pointer. -/
def fdePointerTuples (st : ParseState) : List FactTuple :=
  st.fdes.filterMap fun f =>
    f.lsdaPointer.map fun a => .fdePointerLocations f.offset f.cieOffset .lsda a

/-- Modelled from the spec: all tuples projected from a parse result. -/
def tuplesOfState (st : ParseState) : List FactTuple :=
  cieEntryTuples st ++ cieEncodingTuples st ++ ciePersonalityTuples st ++ fdePointerTuples st

/-- The decoder object of src/ExceptionDecoder.h: its only state is the
frame-parser result built once in the constructor (the ehParser
member). -/
structure ExceptionDecoder where
  ehParser : Except DecodeError ParseState

/-- Modelled from the spec: the ExceptionDecoder constructor — parse the
exception-frame section bytes obtained from the ELF reader against the
load base, storing the result. -/
def ExceptionDecoder.init (sectionBytes : List Nat) (loadBase : Int) : ExceptionDecoder :=
  ⟨parseSection sectionBytes loadBase⟩

/-- The tuples a decoder emits: the projection of the stored parse
result, and nothing when the parse failed (no partial fact emission). -/
def ExceptionDecoder.tuples (d : ExceptionDecoder) : List FactTuple :=
  match d.ehParser with
  | .ok st => tuplesOfState st
  | .error _ => []

/-! ## Fact Store Adapter (spec.md section 4.4) -/

/-- The relation each tuple kind is inserted into. -/
def relName : FactTuple → String
  | .cieEntry .. => "cie_entry"
  | .cieEncoding .. => "cie_encoding"
  | .ciePersonality .. => "cie_personality"
  | .fdePointerLocations .. => "fde_pointer_locations"

/-- The downstream fact store: named relations holding tuples. -/
def FactStore : Type := String → List FactTuple

/-- Modelled from the spec: idempotent insertion into a named relation —
a duplicate identical tuple leaves the relation unchanged. -/
def insertFact (s : FactStore) (t : FactTuple) : FactStore :=
  fun r =>
    if r = relName t then (if t ∈ s r then s r else s r ++ [t]) else s r

/-- Modelled from the spec: addExceptionInformation — project the stored
parse result into tuples and insert each into its relation of the
supplied program. -/
def addExceptionInformation (d : ExceptionDecoder) (prog : FactStore) : FactStore :=
  d.tuples.foldl insertFact prog

/-- Iterate addExceptionInformation n times from a decoder and store,
threading the decoder value through each call. -/
def runCalls : Nat → ExceptionDecoder × FactStore → ExceptionDecoder × FactStore
  | 0, p => p
  | n + 1, (d, s) => runCalls n (d, addExceptionInformation d s)

/-- Modelled from the spec: the Encoding Resolver viewed against the
decoder state it could have read — it takes no state and changes none,
so the state is passed through untouched. -/
def resolveEncodedInState (st : ParseState) (enc : Nat) (base : Int) (bs : List Nat) :
    Except DecodeError Int × ParseState :=
  (resolveEncoded enc base bs, st)

/-- The CIE offset a tuple refers to: its own offset for the three CIE
tuple kinds, the owning CIE's offset for an FDE pointer-location
tuple. -/
def tupleCieOffset : FactTuple → Nat
  | .cieEntry o _ _ _ _ => o
  | .cieEncoding o _ _ => o
  | .ciePersonality o _ => o
  | .fdePointerLocations _ c _ _ => c

/-- Referential integrity of a parse state: every FDE's back-reference
offset is the offset of some CIE in the collection. -/
def StateInv (st : ParseState) : Prop :=
  ∀ f ∈ st.fdes, ∃ c ∈ st.cies, f.cieOffset = c.offset

/-- A concrete well-formed section: one CIE at offset 0 with
augmentation "zPLR" (personality encoding 0x03 with pointer bytes
16,0,0,0; LSDA encoding 0x03; FDE encoding 0x03), one FDE at offset 25
referencing it with an LSDA pointer, then the terminator record. -/
def sampleSec : List Nat :=
  [21, 0, 0, 0] ++ [0, 0, 0, 0] ++
    ([1] ++ [122, 80, 76, 82, 0] ++ [1] ++ [120] ++ [16] ++ [7] ++
      ([3] ++ [16, 0, 0, 0] ++ [3] ++ [3])) ++
  ([17, 0, 0, 0] ++ [25, 0, 0, 0] ++
    ([0, 16, 0, 0] ++ [64, 0, 0, 0] ++ [4] ++ [0, 32, 0, 0])) ++
  [0, 0, 0, 0]

/-- The parse result of sampleSec under load base 0. -/
def sampleState : ParseState :=
  ⟨[⟨0, 1, [122, 80, 76, 82], 1, -8, 16, some 3, some (3, 16), some 3⟩],
   [⟨25, 0, 4096, 64, some 8192⟩], []⟩

/-- A concrete section whose single record is an FDE whose
back-reference (0 − 4) matches no CIE: a dangling FDE. -/
def danglingSec : List Nat :=
  [8, 0, 0, 0] ++ [4, 0, 0, 0] ++ [1, 2, 3, 4]

end EhFrame

namespace EhFrame

theorem leValue_cons (b : Nat) (bs : List Nat) : leValue (b :: bs) = b + 256 * leValue bs := rfl

theorem leBytes_length (w : Nat) : ∀ n, (leBytes w n).length = w := by
  induction w with
  | zero => intro n; rfl
  | succ w ih => intro n; simp [leBytes, ih]

theorem leValue_leBytes (w : Nat) : ∀ n, n < 256 ^ w → leValue (leBytes w n) = n := by
  induction w with
  | zero =>
    intro n h
    simp [pow_zero] at h
    simp [h, leBytes, leValue]
  | succ w ih =>
    intro n h
    have hd : n / 256 < 256 ^ w := by
      rw [Nat.div_lt_iff_lt_mul (by norm_num)]
      calc n < 256 ^ (w + 1) := h
        _ = 256 ^ w * 256 := by ring
    rw [leBytes, leValue_cons, ih _ hd]
    omega

theorem ulebDecode_encodeAux (f : Nat) :
    ∀ n, n ≤ f → ∃ k, ulebDecode (ulebEncodeAux f n) = some (n, k) := by
  induction f with
  | zero =>
    intro n hn
    interval_cases n
    exact ⟨1, rfl⟩
  | succ f ih =>
    intro n hn
    by_cases h : n < 128
    · exact ⟨1, by simp [ulebEncodeAux, h, ulebDecode]⟩
    · have hrec : n / 128 ≤ f := by omega
      obtain ⟨k, hk⟩ := ih (n / 128) hrec
      refine ⟨k + 1, ?_⟩
      have hb : ¬(n % 128 + 128 < 128) := by omega
      simp [ulebEncodeAux, h, ulebDecode, hb, hk]
      omega

end EhFrame

namespace EhFrame

theorem slebDecode_encodeAux (f : Nat) :
    ∀ n : Int, n.natAbs ≤ f → ∃ k, slebDecode (slebEncodeAux f n) = some (n, k) := by
  induction f with
  | zero =>
    intro n hn
    have h0 : n = 0 := by omega
    subst h0
    exact ⟨1, rfl⟩
  | succ f ih =>
    intro n hn
    have hm0 : (0 : Int) ≤ n % 128 := Int.emod_nonneg n (by norm_num)
    have hm1 : n % 128 < 128 := Int.emod_lt_of_pos n (by norm_num)
    by_cases h : -64 ≤ n ∧ n < 64
    · refine ⟨1, ?_⟩
      simp only [slebEncodeAux, if_pos h, slebDecode]
      have hlt : (n % 128).toNat < 128 := by omega
      rcases le_or_lt 0 n with hs | hs
      · have he : n % 128 = n := Int.emod_eq_of_lt hs (by omega)
        have : (n % 128).toNat < 64 := by omega
        simp [hlt, this]
        omega
      · have he : n % 128 = n + 128 := by omega
        have : ¬((n % 128).toNat < 64) := by omega
        simp [hlt, this]
        omega
    · have hrec : (n / 128).natAbs ≤ f := by omega
      obtain ⟨k, hk⟩ := ih (n / 128) hrec
      refine ⟨k + 1, ?_⟩
      simp only [slebEncodeAux, if_neg h, slebDecode]
      have hb : ¬((n % 128).toNat + 128 < 128) := by omega
      simp [hb, hk]
      omega

end EhFrame

namespace EhFrame

theorem fromTwos_emod (w : Nat) (raw : Int) (hw : w ≠ 0)
    (h1 : -(256 ^ w / 2) ≤ raw) (h2 : raw < 256 ^ w / 2) :
    fromTwos w ((raw % ((256 : Int) ^ w)).toNat) = raw := by
  have hN : (0 : Int) < 256 ^ w := by positivity
  obtain ⟨m, hm⟩ : (2 : Int) ∣ 256 ^ w := dvd_pow (by norm_num) hw
  have hhalf : (256 : Int) ^ w / 2 = m := by rw [hm]; exact Int.mul_ediv_cancel_left m (by norm_num)
  rw [hhalf] at h1 h2
  have hmod : raw % ((256 : Int) ^ w) = raw ∨ raw % ((256 : Int) ^ w) = raw + 256 ^ w := by
    rcases le_or_lt 0 raw with hr | hr
    · left; exact Int.emod_eq_of_lt hr (by omega)
    · right
      have hadd : (raw + 256 ^ w) % ((256 : Int) ^ w) = raw % ((256 : Int) ^ w) := by
        rw [show raw + (256 : Int) ^ w = raw + 256 ^ w * 1 by ring]
        exact Int.add_mul_emod_self_left raw ((256 : Int) ^ w) 1
      rw [← hadd]
      exact Int.emod_eq_of_lt (by omega) (by omega)
  have hnn : (0 : Int) ≤ raw % ((256 : Int) ^ w) := Int.emod_nonneg raw (ne_of_gt hN)
  have hcastN : (((256 : Nat) ^ w : Nat) : Int) = (256 : Int) ^ w := by push_cast; ring
  unfold fromTwos
  split_ifs with hc
  · omega
  · omega

theorem fixedU_roundtrip (w : Nat) (raw : Int) (h0 : 0 ≤ raw) (h1 : raw < 256 ^ w) :
    ((leValue ((leBytes w raw.toNat).take w)) : Int) = raw ∧ w ≤ (leBytes w raw.toNat).length := by
  have hlen : (leBytes w raw.toNat).length = w := leBytes_length w _
  have htake : (leBytes w raw.toNat).take w = leBytes w raw.toNat :=
    List.take_of_length_le (le_of_eq hlen)
  have hcastN : (((256 : Nat) ^ w : Nat) : Int) = (256 : Int) ^ w := by push_cast; ring
  have hv : raw.toNat < 256 ^ w := by omega
  rw [htake, leValue_leBytes w _ hv]
  exact ⟨by omega, le_of_eq hlen.symm⟩

theorem fixedS_roundtrip (w : Nat) (raw : Int) (hw : w ≠ 0)
    (h1 : -(256 ^ w / 2) ≤ raw) (h2 : raw < 256 ^ w / 2) :
    fromTwos w (leValue ((leBytes w ((raw % ((256 : Int) ^ w)).toNat)).take w)) = raw ∧
      w ≤ (leBytes w ((raw % ((256 : Int) ^ w)).toNat)).length := by
  have hN : (0 : Int) < 256 ^ w := by positivity
  have hlen : (leBytes w ((raw % ((256 : Int) ^ w)).toNat)).length = w := leBytes_length w _
  have htake : (leBytes w ((raw % ((256 : Int) ^ w)).toNat)).take w
      = leBytes w ((raw % ((256 : Int) ^ w)).toNat) :=
    List.take_of_length_le (le_of_eq hlen)
  have hnn : (0 : Int) ≤ raw % ((256 : Int) ^ w) := Int.emod_nonneg raw (ne_of_gt hN)
  have hub : raw % ((256 : Int) ^ w) < (256 : Int) ^ w := Int.emod_lt_of_pos raw hN
  have hcastN : (((256 : Nat) ^ w : Nat) : Int) = (256 : Int) ^ w := by push_cast; ring
  have hv : (raw % ((256 : Int) ^ w)).toNat < 256 ^ w := by omega
  rw [htake, leValue_leBytes w _ hv]
  exact ⟨fromTwos_emod w raw hw h1 h2, le_of_eq hlen.symm⟩

end EhFrame

namespace EhFrame

theorem rawFieldDecode_encode (fmt : Nat) (raw : Int) (h : rawRepresentable fmt raw) :
    ∃ k, rawFieldDecode fmt (encodeByFormat fmt raw) = .ok (raw, k) := by
  unfold rawRepresentable at h
  split at h
  · -- 0x0: 8-byte absolute
    obtain ⟨hv, hlen⟩ := fixedU_roundtrip 8 raw h.1 (by exact_mod_cast h.2)
    exact ⟨8, by simp [rawFieldDecode, encodeByFormat, hlen, hv]⟩
  · -- 0x1: unsigned LEB128
    obtain ⟨k, hk⟩ := ulebDecode_encodeAux raw.toNat raw.toNat (le_refl _)
    refine ⟨k, ?_⟩
    simp [rawFieldDecode, encodeByFormat, ulebEncode, hk]
    omega
  · obtain ⟨hv, hlen⟩ := fixedU_roundtrip 2 raw h.1 (by exact_mod_cast h.2)
    exact ⟨2, by simp [rawFieldDecode, encodeByFormat, hlen, hv]⟩
  · obtain ⟨hv, hlen⟩ := fixedU_roundtrip 4 raw h.1 (by exact_mod_cast h.2)
    exact ⟨4, by simp [rawFieldDecode, encodeByFormat, hlen, hv]⟩
  · obtain ⟨hv, hlen⟩ := fixedU_roundtrip 8 raw h.1 (by exact_mod_cast h.2)
    exact ⟨8, by simp [rawFieldDecode, encodeByFormat, hlen, hv]⟩
  · -- 0x9: signed LEB128
    obtain ⟨k, hk⟩ := slebDecode_encodeAux raw.natAbs raw (le_refl _)
    exact ⟨k, by simp [rawFieldDecode, encodeByFormat, slebEncode, hk]⟩
  · obtain ⟨hv, hlen⟩ := fixedS_roundtrip 2 raw (by norm_num)
      (by exact_mod_cast h.1) (by exact_mod_cast h.2)
    norm_num at hv hlen
    exact ⟨2, by simp [rawFieldDecode, encodeByFormat, hlen, hv]⟩
  · obtain ⟨hv, hlen⟩ := fixedS_roundtrip 4 raw (by norm_num)
      (by exact_mod_cast h.1) (by exact_mod_cast h.2)
    norm_num at hv hlen
    exact ⟨4, by simp [rawFieldDecode, encodeByFormat, hlen, hv]⟩
  · obtain ⟨hv, hlen⟩ := fixedS_roundtrip 8 raw (by norm_num)
      (by exact_mod_cast h.1) (by exact_mod_cast h.2)
    norm_num at hv hlen
    exact ⟨8, by simp [rawFieldDecode, encodeByFormat, hlen, hv]⟩
  · exact h.elim

end EhFrame

namespace EhFrame

/-- C4 -/
theorem encoding_resolver_roundtrip (enc : Nat) (base v : Int)
    (h : rawRepresentable (enc % 16) (if enc / 16 % 16 = 0 then v else v - base)) :
    resolveEncoded enc base (encodePointer enc base v) = .ok v := by
  obtain ⟨k, hk⟩ := rawFieldDecode_encode (enc % 16) _ h
  unfold resolveEncoded readEncodedRaw encodePointer
  rw [hk]
  unfold applyModifier
  split_ifs with hm
  · rfl
  · simp [hm]

/-- C4 witness -/
theorem encoding_resolver_roundtrip_witness :
    rawRepresentable ((0x12 : Nat) % 16)
      (if (0x12 : Nat) / 16 % 16 = 0 then (1100 : Int) else 1100 - 1000) ∧
    resolveEncoded 0x12 1000 (encodePointer 0x12 1000 1100) = .ok 1100 :=
  ⟨by decide, encoding_resolver_roundtrip 0x12 1000 1100 (by decide)⟩

end EhFrame

namespace EhFrame

theorem rawFieldDecode_error_kind (fmt : Nat) (bs : List Nat) (e : DecodeError)
    (h : rawFieldDecode fmt bs = .error e) :
    e = .MalformedFrameSection ∨ e = .UnsupportedEncoding := by
  unfold rawFieldDecode at h
  split at h <;> (try split at h) <;> simp_all

theorem readEncodedRaw_error_kind (enc : Nat) (bs : List Nat) (e : DecodeError)
    (h : readEncodedRaw enc bs = .error e) :
    e = .MalformedFrameSection ∨ e = .UnsupportedEncoding :=
  rawFieldDecode_error_kind (enc % 16) bs e h

theorem parseAugChars_error_kind (loadBase : Int) (dataPos : Nat) :
    ∀ (cs data : List Nat) (i : Nat) (acc : AugFields) (e : DecodeError),
      parseAugChars loadBase dataPos cs data i acc = .error e →
        e = .MalformedFrameSection := by
  intro cs
  induction cs with
  | nil =>
    intro data i acc e h
    simp [parseAugChars] at h
  | cons c cs ih =>
    intro data i acc e h
    unfold parseAugChars at h
    split_ifs at h with h1 h2 h3 h4
    · exact ih data i acc e h
    · split at h
      · exact ih data _ _ e h
      · simp_all
    · split at h
      · exact ih data _ _ e h
      · simp_all
    · split at h
      · simp_all
      · split at h
        · exact ih data _ _ e h
        · simp_all
        · rename_i e2 hne heq
          rcases readEncodedRaw_error_kind _ _ _ heq with h5 | h5
          · simp_all
          · exact (hne h5).elim

end EhFrame

namespace EhFrame

theorem parseCIEContent_error_kind (loadBase : Int) (pos contentPos : Nat)
    (content : List Nat) (e : DecodeError)
    (h : parseCIEContent loadBase pos contentPos content = .error e) :
    e = .MalformedFrameSection := by
  simp only [parseCIEContent] at h
  repeat' split at h
  all_goals first
    | (simp_all; done)
    | (rename_i e2 heq2
       have hk := parseAugChars_error_kind _ _ _ _ _ _ e2 heq2
       simp_all)

theorem parseFDEContent_cieOffset (loadBase : Int) (pos contentPos : Nat)
    (content : List Nat) (cie : CIE) (fde : FDE)
    (h : parseFDEContent loadBase pos contentPos content cie = .ok (some fde)) :
    fde.cieOffset = cie.offset := by
  simp only [parseFDEContent] at h
  repeat' split at h
  all_goals first
    | (simp_all; done)
    | (cases h; rfl)

theorem parseFDEContent_error_kind (loadBase : Int) (pos contentPos : Nat)
    (content : List Nat) (cie : CIE) (e : DecodeError)
    (h : parseFDEContent loadBase pos contentPos content cie = .error e) :
    e = .MalformedFrameSection := by
  simp only [parseFDEContent] at h
  repeat' split at h
  all_goals first
    | (simp_all; done)
    | (rename_i e2 hne heq
       rcases readEncodedRaw_error_kind _ _ _ heq with h5 | h5
       · simp_all
       · exact (hne h5).elim)

end EhFrame

namespace EhFrame

theorem insertFact_mem_preserve (s : FactStore) (t u : FactTuple) (r : String)
    (h : u ∈ s r) : u ∈ insertFact s t r := by
  unfold insertFact
  split_ifs <;> simp [h]

theorem mem_insertFact_self (s : FactStore) (t : FactTuple) :
    t ∈ insertFact s t (relName t) := by
  unfold insertFact
  split_ifs with h1 h2 <;> simp_all

theorem foldl_insert_mem (l : List FactTuple) :
    ∀ (s : FactStore) (t : FactTuple), t ∈ s (relName t) ∨ t ∈ l →
      t ∈ (l.foldl insertFact s) (relName t) := by
  induction l with
  | nil => intro s t h; simpa using h
  | cons a l ih =>
    intro s t h
    rw [List.foldl_cons]
    rcases h with h | h
    · exact ih _ t (Or.inl (insertFact_mem_preserve s a t _ h))
    · rcases List.mem_cons.mp h with rfl | h
      · exact ih _ t (Or.inl (mem_insertFact_self s t))
      · exact ih _ t (Or.inr h)

theorem insertFact_of_mem (s : FactStore) (t : FactTuple) (h : t ∈ s (relName t)) :
    insertFact s t = s := by
  funext r
  unfold insertFact
  split_ifs with h1 h2 <;> simp_all

theorem foldl_insert_id (l : List FactTuple) :
    ∀ s : FactStore, (∀ t ∈ l, t ∈ s (relName t)) → l.foldl insertFact s = s := by
  induction l with
  | nil => intro s _; rfl
  | cons a l ih =>
    intro s h
    rw [List.foldl_cons, insertFact_of_mem s a (h a (by simp))]
    exact ih s fun t ht => h t (by simp [ht])

/-- C6: the Encoding Resolver is pure and stateless: two calls with the
same encoding byte, base address and raw bytes return the same resolved
pointer regardless of the decoder state they run against, and neither
call changes that state. -/
theorem resolver_stateless (st1 st2 : ParseState) (enc : Nat) (base : Int) (bs : List Nat) :
    (resolveEncodedInState st1 enc base bs).1 = (resolveEncodedInState st2 enc base bs).1 ∧
    (resolveEncodedInState st1 enc base bs).2 = st1 :=
  ⟨rfl, rfl⟩

/-- C7: running the decoder twice on identical section bytes and load
base produces set-equal tuple collections, and inserting the run's
tuples a second time leaves the fact store unchanged (set semantics). -/
theorem decoder_run_idempotent (bytes : List Nat) (base : Int) (s : FactStore) :
    ((ExceptionDecoder.init bytes base).tuples).toFinset
      = ((ExceptionDecoder.init bytes base).tuples).toFinset ∧
    addExceptionInformation (ExceptionDecoder.init bytes base)
        (addExceptionInformation (ExceptionDecoder.init bytes base) s)
      = addExceptionInformation (ExceptionDecoder.init bytes base) s := by
  refine ⟨rfl, ?_⟩
  unfold addExceptionInformation
  apply foldl_insert_id
  intro t ht
  exact foldl_insert_mem _ _ t (Or.inr ht)

/-- C9: the decoder's state is the parse result built in the
constructor; any number of addExceptionInformation calls leaves the
decoder equal to the freshly constructed one and every call observes the
same tuple collection. -/
theorem decoder_state_immutable (d : ExceptionDecoder) (s : FactStore) (n : Nat) :
    (runCalls n (d, s)).1 = d ∧ ((runCalls n (d, s)).1).tuples = d.tuples := by
  have h : ∀ m (d0 : ExceptionDecoder) (s0 : FactStore), (runCalls m (d0, s0)).1 = d0 := by
    intro m
    induction m with
    | zero => intro d0 s0; rfl
    | succ m ih => intro d0 s0; exact ih d0 _
  exact ⟨h n d s, by rw [h n d s]⟩

theorem relName_mem_four (t : FactTuple) :
    relName t ∈ ["cie_entry", "cie_encoding", "cie_personality", "fde_pointer_locations"] := by
  cases t <;> simp [relName]

/-- C10: addExceptionInformation inserts only into the four relations of
its four projections; every other relation of the supplied program is
unchanged. -/
theorem add_exception_information_frame (r : String)
    (h : r ∉ ["cie_entry", "cie_encoding", "cie_personality", "fde_pointer_locations"])
    (d : ExceptionDecoder) (s : FactStore) :
    addExceptionInformation d s r = s r := by
  unfold addExceptionInformation
  generalize d.tuples = l
  induction l generalizing s with
  | nil => rfl
  | cons a l ih =>
    rw [List.foldl_cons, ih]
    unfold insertFact
    have hne : r ≠ relName a := fun he => h (he ▸ relName_mem_four a)
    simp [hne]

/-- C10 witness -/
theorem add_exception_information_frame_witness :
    ("symbol" ∉ ["cie_entry", "cie_encoding", "cie_personality", "fde_pointer_locations"]) ∧
    addExceptionInformation (ExceptionDecoder.init [0, 0, 0, 0] 0) (fun _ => []) "symbol"
      = (fun _ => ([] : List FactTuple)) "symbol" :=
  ⟨by decide, add_exception_information_frame "symbol" (by decide)
    (ExceptionDecoder.init [0, 0, 0, 0] 0) (fun _ => [])⟩

end EhFrame

namespace EhFrame

theorem readU32?_bound (bytes : List Nat) (pos v : Nat) (h : readU32? bytes pos = some v) :
    pos + 4 ≤ bytes.length := by
  unfold readU32? readBytes? at h
  split at h <;> simp_all

theorem recordHeader?_bounds (bytes : List Nat) (pos : Nat) (ext : Bool) (len nxt : Nat)
    (h : recordHeader? bytes pos = some (ext, len, nxt)) :
    pos + 8 ≤ nxt ∧ nxt ≤ bytes.length ∧ pos + 4 ≤ bytes.length := by
  unfold recordHeader? at h
  repeat' split at h
  all_goals simp_all
  all_goals omega

theorem recordHeader?_not_term (bytes : List Nat) (pos : Nat) (x : Bool × Nat × Nat)
    (h : recordHeader? bytes pos = some x) : ¬readU32? bytes pos = some 0 := by
  intro h0
  unfold recordHeader? at h
  rw [h0] at h
  simp at h

theorem stepBody_no_done (bytes : List Nat) (loadBase : Int) (pos : Nat) (st : ParseState)
    (ext : Bool) (len recEnd : Nat) (st2 : ParseState) :
    stepBody bytes loadBase pos st ext len recEnd ≠ .done st2 := by
  intro h
  simp only [stepBody] at h
  repeat' split at h
  all_goals simp_all

theorem stepBody_next_pos (bytes : List Nat) (loadBase : Int) (pos : Nat) (st : ParseState)
    (ext : Bool) (len recEnd : Nat) (st2 : ParseState) (nxt : Nat)
    (h : stepBody bytes loadBase pos st ext len recEnd = .next st2 nxt) : nxt = recEnd := by
  simp only [stepBody] at h
  repeat' split at h
  all_goals simp_all

theorem stepBody_fail_kind (bytes : List Nat) (loadBase : Int) (pos : Nat) (st : ParseState)
    (ext : Bool) (len recEnd : Nat) (e : DecodeError)
    (h : stepBody bytes loadBase pos st ext len recEnd = .fail e) :
    e = .MalformedFrameSection := by
  simp only [stepBody] at h
  repeat' split at h
  all_goals first
    | (simp_all; done)
    | (rename_i e2 heq
       have hk := parseCIEContent_error_kind _ _ _ _ e2 heq
       simp_all)
    | (rename_i e2 heq
       have hk := parseFDEContent_error_kind _ _ _ _ _ e2 heq
       simp_all)

theorem stepBody_next_or_fail (bytes : List Nat) (loadBase : Int) (pos : Nat)
    (st : ParseState) (ext : Bool) (len recEnd : Nat) :
    stepBody bytes loadBase pos st ext len recEnd = .fail .MalformedFrameSection ∨
      ∃ st2, stepBody bytes loadBase pos st ext len recEnd = .next st2 recEnd := by
  rcases hs : stepBody bytes loadBase pos st ext len recEnd with st2 | ⟨st2, nxt⟩ | e
  · exact (stepBody_no_done _ _ _ _ _ _ _ _ hs).elim
  · rw [stepBody_next_pos _ _ _ _ _ _ _ _ _ hs]
    exact Or.inr ⟨st2, rfl⟩
  · rw [stepBody_fail_kind _ _ _ _ _ _ _ _ hs]
    exact Or.inl rfl

theorem stepAt_of_header (bytes : List Nat) (loadBase : Int) (pos : Nat) (st : ParseState)
    (ext : Bool) (len nxt : Nat)
    (hh : recordHeader? bytes pos = some (ext, len, nxt)) :
    stepAt bytes loadBase pos st = .fail .MalformedFrameSection ∨
      ∃ st2, stepAt bytes loadBase pos st = .next st2 nxt := by
  unfold stepAt
  rw [if_neg (recordHeader?_not_term bytes pos _ hh), hh]
  exact stepBody_next_or_fail bytes loadBase pos st ext len nxt

end EhFrame

namespace EhFrame

theorem stepAt_fail_kind (bytes : List Nat) (loadBase : Int) (pos : Nat) (st : ParseState)
    (e : DecodeError) (h : stepAt bytes loadBase pos st = .fail e) :
    e = .MalformedFrameSection := by
  unfold stepAt at h
  split at h
  · simp_all
  · split at h
    · simp_all
    · exact stepBody_fail_kind _ _ _ _ _ _ _ _ h

theorem stepAt_done_eq (bytes : List Nat) (loadBase : Int) (pos : Nat) (st st2 : ParseState)
    (h : stepAt bytes loadBase pos st = .done st2) : st2 = st := by
  unfold stepAt at h
  split at h
  · simp_all
  · split at h
    · simp_all
    · exact ((stepBody_no_done _ _ _ _ _ _ _ _) h).elim

theorem stepAt_next_header (bytes : List Nat) (loadBase : Int) (pos : Nat)
    (st st2 : ParseState) (nxt : Nat)
    (h : stepAt bytes loadBase pos st = .next st2 nxt) :
    ∃ ext len, recordHeader? bytes pos = some (ext, len, nxt) := by
  unfold stepAt at h
  split at h
  · simp_all
  · split at h
    · simp_all
    · rename_i ext len recEnd heq
      rw [stepBody_next_pos _ _ _ _ _ _ _ _ _ h]
      exact ⟨ext, len, heq⟩

theorem stepAt_next_bound (bytes : List Nat) (loadBase : Int) (pos : Nat)
    (st st2 : ParseState) (nxt : Nat)
    (h : stepAt bytes loadBase pos st = .next st2 nxt) :
    pos + 8 ≤ nxt ∧ nxt ≤ bytes.length := by
  obtain ⟨ext, len, hh⟩ := stepAt_next_header _ _ _ _ _ _ h
  have := recordHeader?_bounds _ _ _ _ _ hh
  omega

theorem stepBody_inv (bytes : List Nat) (loadBase : Int) (pos : Nat) (st : ParseState)
    (ext : Bool) (len recEnd : Nat) (st2 : ParseState) (nxt : Nat)
    (hInv : StateInv st) (h : stepBody bytes loadBase pos st ext len recEnd = .next st2 nxt) :
    StateInv st2 := by
  simp only [stepBody] at h
  repeat' split at h
  all_goals try (cases h)
  all_goals first
    | exact hInv
    | (intro f hf
       obtain ⟨c, hc, e⟩ := hInv f hf
       exact ⟨c, List.mem_append_left _ hc, e⟩)
    | (intro f hf
       rcases List.mem_append.mp hf with hf2 | hf2
       · obtain ⟨c, hc, e⟩ := hInv f hf2
         exact ⟨c, hc, e⟩
       · rename_i x1 cie hFind x2 fde hFde
         rcases List.mem_singleton.mp hf2 with rfl
         exact ⟨cie, List.mem_of_find?_eq_some hFind,
           parseFDEContent_cieOffset _ _ _ _ _ _ hFde⟩)

end EhFrame

namespace EhFrame

theorem stepAt_inv (bytes : List Nat) (loadBase : Int) (pos : Nat) (st st2 : ParseState)
    (nxt : Nat) (hInv : StateInv st) (h : stepAt bytes loadBase pos st = .next st2 nxt) :
    StateInv st2 := by
  unfold stepAt at h
  split at h
  · simp_all
  · split at h
    · simp_all
    · exact stepBody_inv _ _ _ _ _ _ _ _ _ hInv h

theorem parseFrom_succ_eq (bytes : List Nat) (loadBase : Int) (f pos : Nat)
    (st : ParseState) (h : pos < bytes.length) :
    parseFrom bytes loadBase (f + 1) pos st =
      (match stepAt bytes loadBase pos st with
        | .done st2 => .ok st2
        | .fail e => .error e
        | .next st2 nxt => parseFrom bytes loadBase f nxt st2) := by
  conv_lhs => unfold parseFrom
  rw [if_neg (by omega)]

theorem parseFrom_inv (bytes : List Nat) (loadBase : Int) :
    ∀ (f pos : Nat) (st st2 : ParseState), StateInv st →
      parseFrom bytes loadBase f pos st = .ok st2 → StateInv st2 := by
  intro f
  induction f with
  | zero =>
    intro pos st st2 hInv h
    unfold parseFrom at h
    split at h
    · cases h; exact hInv
    · simp_all
  | succ f ih =>
    intro pos st st2 hInv h
    by_cases hp : bytes.length ≤ pos
    · unfold parseFrom at h
      rw [if_pos hp] at h
      cases h; exact hInv
    · rw [parseFrom_succ_eq bytes loadBase f pos st (by omega)] at h
      split at h
      · rename_i st3 heq
        cases h
        have h3 := stepAt_done_eq _ _ _ _ _ heq
        subst h3
        exact hInv
      · simp_all
      · rename_i st3 nxt heq
        exact ih nxt st3 st2 (stepAt_inv _ _ _ _ _ _ hInv heq) h

theorem parseFrom_total (bytes : List Nat) (loadBase : Int) :
    ∀ (f pos : Nat) (st : ParseState), bytes.length + 5 ≤ pos + 5 * f →
      (∃ st2, parseFrom bytes loadBase f pos st = .ok st2) ∨
        parseFrom bytes loadBase f pos st = .error .MalformedFrameSection := by
  intro f
  induction f with
  | zero =>
    intro pos st hf
    left
    refine ⟨st, ?_⟩
    unfold parseFrom
    rw [if_pos (by omega)]
  | succ f ih =>
    intro pos st hf
    by_cases hp : bytes.length ≤ pos
    · left
      refine ⟨st, ?_⟩
      unfold parseFrom
      rw [if_pos hp]
    · rw [parseFrom_succ_eq bytes loadBase f pos st (by omega)]
      rcases hs : stepAt bytes loadBase pos st with st2 | ⟨st2, nxt⟩ | e
      · exact Or.inl ⟨st2, rfl⟩
      · have hb := stepAt_next_bound _ _ _ _ _ _ hs
        exact ih nxt st2 (by omega)
      · rw [stepAt_fail_kind _ _ _ _ _ hs]
        exact Or.inr rfl

/-- C8: decoding always terminates with a definite verdict: with fuel
equal to the section length plus one, the cursor loop reaches the
terminator or the end of the section (producing a parse result) or
fails with MalformedFrameSection — it never exhausts its fuel. -/
theorem decode_terminates (bytes : List Nat) (loadBase : Int) :
    (∃ st, parseSection bytes loadBase = .ok st) ∨
      parseSection bytes loadBase = .error .MalformedFrameSection :=
  parseFrom_total bytes loadBase (bytes.length + 1) 0 ⟨[], [], []⟩ (by omega)

/-- C1: for every section the parser accepts, the projector emits one
"CIE record" tuple per parsed CIE, and the owning-cie-offset of every
emitted "FDE pointer locations" tuple is the cie-offset of some emitted
"CIE record" tuple. -/
theorem cie_fde_referential_integrity (bytes : List Nat) (loadBase : Int) (st : ParseState)
    (h : parseSection bytes loadBase = .ok st) :
    (cieEntryTuples st).length = st.cies.length ∧
    ∀ t ∈ fdePointerTuples st, ∃ u ∈ cieEntryTuples st,
      tupleCieOffset t = tupleCieOffset u := by
  have hInv : StateInv st :=
    parseFrom_inv bytes loadBase (bytes.length + 1) 0 ⟨[], [], []⟩ st
      (by intro f hf; simp at hf) h
  constructor
  · simp [cieEntryTuples]
  · intro t ht
    simp only [fdePointerTuples, List.mem_filterMap] at ht
    obtain ⟨fd, hfd, hmap⟩ := ht
    rcases Option.map_eq_some'.mp hmap with ⟨a, ha, rfl⟩
    obtain ⟨c, hc, he⟩ := hInv fd hfd
    refine ⟨.cieEntry c.offset c.version c.codeAlign c.dataAlign c.retAddrReg, ?_, ?_⟩
    · simp only [cieEntryTuples, List.mem_map]
      exact ⟨c, hc, rfl⟩
    · simpa [tupleCieOffset] using he

/-- C1 witness -/
theorem cie_fde_referential_integrity_witness :
    parseSection sampleSec 0 = .ok sampleState ∧
    ((cieEntryTuples sampleState).length = sampleState.cies.length ∧
     ∀ t ∈ fdePointerTuples sampleState, ∃ u ∈ cieEntryTuples sampleState,
       tupleCieOffset t = tupleCieOffset u) :=
  ⟨rfl, cie_fde_referential_integrity sampleSec 0 sampleState rfl⟩

end EhFrame

namespace EhFrame

theorem headerTruncated_none (bytes : List Nat) (pos : Nat) (h : headerTruncated bytes pos) :
    recordHeader? bytes pos = none ∧ readU32? bytes pos ≠ some 0 := by
  obtain ⟨hpos, hcase⟩ := h
  rcases hcase with hc | ⟨h32, hc⟩ | ⟨len0, h32, hne0, hneff, hc⟩ | ⟨len, h32, h64, hc⟩
  · have h32 : readU32? bytes pos = none := by
      unfold readU32? readBytes?
      rw [if_neg (by omega)]
      rfl
    refine ⟨?_, by rw [h32]; simp⟩
    unfold recordHeader?
    rw [h32]
  · have h64 : readU64? bytes (pos + 4) = none := by
      unfold readU64? readBytes?
      rw [if_neg (by omega)]
      rfl
    refine ⟨?_, by rw [h32]; simp⟩
    unfold recordHeader?
    rw [h32]
    simp [h64]
  · refine ⟨?_, by rw [h32]; simp [hne0]⟩
    unfold recordHeader?
    rw [h32]
    simp [hne0, hneff]
    omega
  · refine ⟨?_, by rw [h32]; simp⟩
    unfold recordHeader?
    rw [h32]
    simp [h64]
    omega

theorem headerTruncated_step (bytes : List Nat) (loadBase : Int) (pos : Nat)
    (st : ParseState) (h : headerTruncated bytes pos) :
    stepAt bytes loadBase pos st = .fail .MalformedFrameSection := by
  obtain ⟨hnone, hterm⟩ := headerTruncated_none bytes pos h
  unfold stepAt
  rw [if_neg hterm, hnone]

theorem reaches_run (bytes : List Nat) (loadBase : Int) :
    ∀ pos : Nat, Reaches bytes pos →
      parseSection bytes loadBase = .error .MalformedFrameSection ∨
      ∃ (st : ParseState) (f : Nat), bytes.length + 5 ≤ pos + 5 * f ∧
        parseFrom bytes loadBase f pos st = parseSection bytes loadBase := by
  intro pos hr
  induction hr with
  | refl =>
    right
    exact ⟨⟨[], [], []⟩, bytes.length + 1, by omega, rfl⟩
  | @step pos2 ext len nxt hr hh ih =>
    rcases ih with ih | ⟨st, f, hf, heq⟩
    · exact Or.inl ih
    · have hb := recordHeader?_bounds _ _ _ _ _ hh
      have hposlt : pos2 < bytes.length := by omega
      obtain ⟨f2, rfl⟩ : ∃ f2, f = f2 + 1 := ⟨f - 1, by omega⟩
      rw [parseFrom_succ_eq bytes loadBase f2 pos2 st hposlt] at heq
      rcases stepAt_of_header bytes loadBase pos2 st _ _ _ hh with hfail | ⟨st2, hnext⟩
      · rw [hfail] at heq
        exact Or.inl heq.symm
      · rw [hnext] at heq
        right
        exact ⟨st2, f2, by omega, heq⟩

/-- C2: when the cursor walk reaches a record whose length field is cut
off by the end of the section or whose declared length overruns the
section boundary, the whole decode fails with MalformedFrameSection and
the decoder emits zero tuples. -/
theorem truncated_record_fails (bytes : List Nat) (loadBase : Int) (pos : Nat)
    (hr : Reaches bytes pos) (ht : headerTruncated bytes pos) :
    parseSection bytes loadBase = .error .MalformedFrameSection ∧
    (ExceptionDecoder.init bytes loadBase).tuples = [] := by
  have hmain : parseSection bytes loadBase = .error .MalformedFrameSection := by
    rcases reaches_run bytes loadBase pos hr with hdone | ⟨st, f, hf, heq⟩
    · exact hdone
    · have hposlt : pos < bytes.length := ht.1
      obtain ⟨f2, rfl⟩ : ∃ f2, f = f2 + 1 := ⟨f - 1, by omega⟩
      rw [parseFrom_succ_eq bytes loadBase f2 pos st hposlt] at heq
      rw [headerTruncated_step bytes loadBase pos st ht] at heq
      exact heq.symm
  refine ⟨hmain, ?_⟩
  unfold ExceptionDecoder.tuples ExceptionDecoder.init
  rw [hmain]

/-- C2 witness -/
theorem truncated_record_fails_witness :
    headerTruncated [100, 0, 0, 0] 0 ∧
    (parseSection [100, 0, 0, 0] 0 = .error .MalformedFrameSection ∧
     (ExceptionDecoder.init [100, 0, 0, 0] 0).tuples = []) :=
  ⟨⟨by decide, Or.inr (Or.inr (Or.inl ⟨100, rfl, by decide, by decide, by decide⟩))⟩,
   truncated_record_fails [100, 0, 0, 0] 0 0 Reaches.refl
     ⟨by decide, Or.inr (Or.inr (Or.inl ⟨100, rfl, by decide, by decide, by decide⟩))⟩⟩

end EhFrame

namespace EhFrame

/-- C3: a record at a reachable position whose CIE-pointer value is
nonzero and whose computed back-reference offset matches no parsed CIE
is skipped: it adds no FDE and no CIE, only a DanglingFDEReference
diagnostic is surfaced, and parsing continues at the next record from
the otherwise unchanged state — so subsequent records produce exactly
the tuples they would have produced, the appended diagnostic changing
no projected tuple. -/
theorem dangling_fde_skipped (bytes : List Nat) (loadBase : Int) (f pos : Nat)
    (st : ParseState) (ext : Bool) (len nxt v : Nat)
    (hh : recordHeader? bytes pos = some (ext, len, nxt))
    (hv : recordId? bytes pos = some v) (hv0 : v ≠ 0)
    (hd : ∀ c ∈ st.cies, (c.offset : Int) ≠ (pos : Int) - (v : Int)) :
    parseFrom bytes loadBase (f + 1) pos st =
      parseFrom bytes loadBase f nxt
        { st with diags := st.diags ++ [.danglingFDEReference pos] } ∧
    tuplesOfState { st with diags := st.diags ++ [.danglingFDEReference pos] }
      = tuplesOfState st := by
  have hb := recordHeader?_bounds _ _ _ _ _ hh
  have hpos : pos < bytes.length := by omega
  have hid : recordId? bytes pos =
      some (leValue (((bytes.drop (pos + (if ext then 12 else 4))).take len).take
        (if ext then 8 else 4))) := by
    unfold recordId?
    rw [hh]
  rw [hid] at hv
  have hveq := Option.some.inj hv
  have hfind : st.cies.find?
      (fun c => (c.offset : Int) = (pos : Int) - ((v : Nat) : Int)) = none :=
    List.find?_eq_none.mpr (fun c hc => by simpa using hd c hc)
  have hstep : stepAt bytes loadBase pos st =
      .next { st with diags := st.diags ++ [.danglingFDEReference pos] } nxt := by
    unfold stepAt
    rw [if_neg (recordHeader?_not_term _ _ _ hh), hh]
    simp only [stepBody]
    rw [hveq, if_neg hv0, hfind]
  constructor
  · rw [parseFrom_succ_eq bytes loadBase f pos st hpos, hstep]
  · rfl

end EhFrame

namespace EhFrame

/-- C3 witness -/
theorem dangling_fde_skipped_witness :
    recordHeader? danglingSec 0 = some (false, 8, 12) ∧
    recordId? danglingSec 0 = some 4 ∧
    (parseFrom danglingSec 0 13 0 ⟨[], [], []⟩ =
       parseFrom danglingSec 0 12 12 ⟨[], [], [.danglingFDEReference 0]⟩ ∧
     tuplesOfState ⟨[], [], [.danglingFDEReference 0]⟩ = tuplesOfState ⟨[], [], []⟩) :=
  ⟨rfl, rfl,
   dangling_fde_skipped danglingSec 0 12 0 ⟨[], [], []⟩ false 8 12 4 rfl rfl
     (by decide) (by simp)⟩

/-- C5: on a CIE whose augmentation string is "zPLR", the field walker
reads the personality encoding byte and encoded personality pointer
first, the LSDA encoding byte second and the FDE-pointer encoding byte
third — the order of the characters in the string, wherever the fields
fall inside the augmentation data — and the projector emits exactly one
"CIE encoding" and exactly one "CIE personality" tuple for a CIE with
both fields present. -/
theorem zplr_order (loadBase : Int) (dataPos : Nat) (persEnc : Nat)
    (persField : List Nat) (lsdaEnc fdeEnc : Nat) (raw : Int)
    (hp : readEncodedRaw persEnc (persField ++ [lsdaEnc, fdeEnc])
        = .ok (raw, persField.length)) :
    parseAugChars loadBase dataPos [122, 80, 76, 82]
        ([persEnc] ++ persField ++ [lsdaEnc, fdeEnc]) 0 ⟨none, none, none⟩ =
      .ok ⟨some fdeEnc,
           some (persEnc, applyModifier persEnc (baseFor loadBase (dataPos + 1) persEnc) raw),
           some lsdaEnc⟩ ∧
    ∀ c : CIE, c.fdeEncoding.isSome → c.personality.isSome →
      (cieEncodingTuples ⟨[c], [], []⟩).length = 1 ∧
      (ciePersonalityTuples ⟨[c], [], []⟩).length = 1 := by
  constructor
  · have h1 : (persEnc :: (persField ++ [lsdaEnc, fdeEnc]))[1 + persField.length]?
        = some lsdaEnc := by
      rw [Nat.add_comm, List.getElem?_cons_succ,
        List.getElem?_append_right (Nat.le_refl _)]
      simp
    have h2 : (persField ++ [lsdaEnc, fdeEnc])[1 + persField.length]?
        = some fdeEnc := by
      rw [List.getElem?_append_right (by omega)]
      simp
    simp only [parseAugChars]
    norm_num
    rw [hp]
    simp [h1, h2]
  · intro c h1 h2
    obtain ⟨e, he⟩ := Option.isSome_iff_exists.mp h1
    obtain ⟨p, hp2⟩ := Option.isSome_iff_exists.mp h2
    constructor
    · simp [cieEncodingTuples, he]
    · simp [ciePersonalityTuples, hp2]

end EhFrame

namespace EhFrame

/-- C5 witness -/
theorem zplr_order_witness :
    readEncodedRaw 3 ([16, 0, 0, 0] ++ [3, 3]) = .ok (16, ([16, 0, 0, 0] : List Nat).length) ∧
    (parseAugChars 0 0 [122, 80, 76, 82] ([3] ++ [16, 0, 0, 0] ++ [3, 3]) 0
        ⟨none, none, none⟩ =
       .ok ⟨some 3, some (3, 16), some 3⟩ ∧
     ∀ c : CIE, c.fdeEncoding.isSome → c.personality.isSome →
       (cieEncodingTuples ⟨[c], [], []⟩).length = 1 ∧
       (ciePersonalityTuples ⟨[c], [], []⟩).length = 1) :=
  ⟨rfl, zplr_order 0 0 3 [16, 0, 0, 0] 3 3 16 rfl⟩

end EhFrame
